import Mathlib

/-!
Shallow embedding of the Queue n8n node (`src/nodes/Queue/Queue.node.ts`):
a persistent FIFO queue / mutex with two operating modes (one global queue,
or one independently locked queue per key).

Modelling decisions, each checked against the source:
* The opaque `INodeExecutionData` payload is modelled as a `Nat`; the node
  copies it verbatim to the output, so its structure never matters.
* The per-item node parameter `key` (read by `getNodeParameter('key', i)`)
  is paired with each data item, so an arrival is a `String × Nat` pair.
* A release signal exposes an optional `key` field (`signalInput[i].json?.key`),
  modelled as `Option String`; the source's truthiness test `if (!signalKey)`
  skips both an absent key and the empty string.
* The multi-mode `Record<string, KeyQueueState>` is modelled as an association
  list kept in insertion order, matching JavaScript object key enumeration for
  the ordinary (non-index) string keys this node uses; a fresh key is appended
  at the end, `delete` removes the key's slot and keeps the others in place.
* The emission list collects the emitted `QueueEntry` values; the node itself
  pushes a copy of the entry's payload, recovered below by mapping `data`
  over the emissions (`nodeOutputSingle` / `nodeOutputMulti`).
* The source's `execute` handles both modes with conditionals on `mode`; the
  two disjoint branches are embedded as `executeSingle` and `executeMulti`,
  acting on the same `QueueStaticData` record.
* `Date.now()` is modelled by an explicit `now` argument per invocation.
-/

/-- One queued item (interface `QueueEntry`, source lines 13–17). -/
structure QueueEntry where
  key : String
  data : Nat
  timestamp : Nat
deriving DecidableEq

/-- Per-key queue state, used in multi mode (interface `KeyQueueState`,
source lines 22–25). -/
structure KeyQueueState where
  queue : List QueueEntry
  locked : Bool
deriving DecidableEq

/-- Workflow static data shape (interface `QueueStaticData`, source lines
30–37): all three fields are optional and are given their defaults by the
per-invocation setup (`??=`, source lines 88–95). -/
structure QueueStaticData where
  queue : Option (List QueueEntry)
  locked : Option Bool
  queues : Option (List (String × KeyQueueState))
deriving DecidableEq

/-- The static data before first use: nothing has been set. -/
def emptyStatic : QueueStaticData := ⟨none, none, none⟩

/-- One activation of the node: the wall-clock reading, the data input
(batch of `(key, payload)` arrivals) and the signal input (batch of
optional release keys). -/
structure Invocation where
  now : Nat
  dataInput : List (String × Nat)
  signalInput : List (Option String)

/-- The enqueue loop's entry construction (source lines 101–108): each data
item becomes a `QueueEntry` carrying its per-item key and the timestamp. -/
def mkEntries (now : Nat) (dataInput : List (String × Nat)) : List QueueEntry :=
  dataInput.map fun kd => { key := kd.1, data := kd.2, timestamp := now }

/-- Single-mode lock promotion (source lines 124–130): if not locked and the
queue is non-empty, lock and emit the front entry; returns the new `locked`
flag and the emissions of this phase. -/
def promoteSingle (locked : Bool) (q : List QueueEntry) : Bool × List QueueEntry :=
  match locked, q with
  | false, e :: _ => (true, [e])
  | l, _ => (l, [])

/-- Single-mode handling of one release signal (source lines 146–164),
acting on the running state `((queue, locked), output)`. A signal without a
key or with the empty-string key is skipped (`if (!signalKey) continue`), an
empty queue is skipped, and the head is removed only when its key equals the
signal's key; after removal the lock clears and, if a waiter remains, the
queue relocks and the new head is emitted. -/
def signalStepSingle (st : (List QueueEntry × Bool) × List QueueEntry)
    (sig : Option String) : (List QueueEntry × Bool) × List QueueEntry :=
  match sig with
  | none => st
  | some signalKey =>
    if signalKey = "" then st
    else
      match st.1.1 with
      | [] => st
      | head :: rest =>
        if head.key = signalKey then
          match rest with
          | [] => ((rest, false), st.2)
          | next :: _ => ((rest, true), st.2 ++ [next])
        else st

/-- Single-mode `execute` (source lines 74–184 restricted to
`mode === 'modeSingle'`): set up defaults, enqueue all arrivals, promote,
then process all release signals in order. Returns the updated static data
and the emitted entries. -/
def executeSingle (inv : Invocation) (sd : QueueStaticData) :
    QueueStaticData × List QueueEntry :=
  let q0 := sd.queue.getD []
  let l0 := sd.locked.getD false
  let q1 := q0 ++ mkEntries inv.now inv.dataInput
  let p1 := promoteSingle l0 q1
  let r := inv.signalInput.foldl signalStepSingle ((q1, p1.1), p1.2)
  ({ sd with queue := some r.1.1, locked := some r.1.2 }, r.2)

/-- The node's actual single-mode output batch: the payload of each emitted
entry (the source pushes `{ ...entry.data }`). -/
def nodeOutputSingle (inv : Invocation) (sd : QueueStaticData) : List Nat :=
  (executeSingle inv sd).2.map QueueEntry.data

/-- First-match association-list lookup, modelling `staticData.queues![k]`. -/
def assocLookup : List (String × KeyQueueState) → String → Option KeyQueueState
  | [], _ => none
  | p :: ps, k => if p.1 = k then some p.2 else assocLookup ps k

/-- Multi-mode enqueue of one entry (source lines 114–117):
`queues[key] ??= { queue: [], locked: false }` followed by a push — the
existing slot for the entry's key is extended, or a fresh slot holding just
this entry is appended at the end of the mapping. -/
def enqueueMulti (qs : List (String × KeyQueueState)) (e : QueueEntry) :
    List (String × KeyQueueState) :=
  match qs with
  | [] => [(e.key, { queue := [e], locked := false })]
  | p :: ps =>
    if p.1 = e.key then (p.1, { p.2 with queue := p.2.queue ++ [e] }) :: ps
    else p :: enqueueMulti ps e

/-- Multi-mode lock promotion (source lines 132–140): walk the mapping in
key order; every unlocked slot with waiters is locked and its front entry
emitted. Returns the new mapping and this phase's emissions. -/
def promoteAll : List (String × KeyQueueState) →
    List (String × KeyQueueState) × List QueueEntry
  | [] => ([], [])
  | (k, st) :: ps =>
    let rest := promoteAll ps
    match st.locked, st.queue with
    | false, e :: _ => ((k, { st with locked := true }) :: rest.1, e :: rest.2)
    | _, _ => ((k, st) :: rest.1, rest.2)

/-- Replace the (first) slot of key `k` with value `v`, modelling in-place
mutation of `staticData.queues![k]`. -/
def assocUpdate : List (String × KeyQueueState) → String → KeyQueueState →
    List (String × KeyQueueState)
  | [], _, _ => []
  | p :: ps, k, v => if p.1 = k then (k, v) :: ps else p :: assocUpdate ps k v

/-- Remove the (first) slot of key `k`, modelling
`delete staticData.queues![k]`. -/
def assocDelete : List (String × KeyQueueState) → String →
    List (String × KeyQueueState)
  | [], _ => []
  | p :: ps, k => if p.1 = k then ps else p :: assocDelete ps k

/-- Multi-mode handling of one release signal (source lines 146–148 and
167–180), acting on `(mapping, output)`. A signal without a key or with the
empty-string key is skipped, as is an absent key or an empty queue; otherwise
the selected queue's head is removed unconditionally, and either the queue
relocks on the next waiter (emitting it) or, now empty, its key is deleted
from the mapping. -/
def signalStepMulti (st : List (String × KeyQueueState) × List QueueEntry)
    (sig : Option String) : List (String × KeyQueueState) × List QueueEntry :=
  match sig with
  | none => st
  | some signalKey =>
    if signalKey = "" then st
    else
      match assocLookup st.1 signalKey with
      | none => st
      | some kq =>
        match kq.queue with
        | [] => st
        | _ :: rest =>
          match rest with
          | next :: _ => (assocUpdate st.1 signalKey ⟨rest, true⟩, st.2 ++ [next])
          | [] => (assocDelete st.1 signalKey, st.2)

/-- Multi-mode `execute` (source lines 74–184 restricted to
`mode === 'modeMulti'`). -/
def executeMulti (inv : Invocation) (sd : QueueStaticData) :
    QueueStaticData × List QueueEntry :=
  let qs0 := sd.queues.getD []
  let qs1 := (mkEntries inv.now inv.dataInput).foldl enqueueMulti qs0
  let p1 := promoteAll qs1
  let r := inv.signalInput.foldl signalStepMulti (p1.1, p1.2)
  ({ sd with queues := some r.1 }, r.2)

/-- The node's actual multi-mode output batch: the payload of each emitted
entry. -/
def nodeOutputMulti (inv : Invocation) (sd : QueueStaticData) : List Nat :=
  (executeMulti inv sd).2.map QueueEntry.data

/-- A sequence of single-mode invocations starting from the given static
data: final static data plus the concatenated emissions. -/
def runSingleFrom : QueueStaticData → List Invocation →
    QueueStaticData × List QueueEntry
  | sd, [] => (sd, [])
  | sd, inv :: rest =>
    let r := executeSingle inv sd
    let r2 := runSingleFrom r.1 rest
    (r2.1, r.2 ++ r2.2)

/-- A sequence of single-mode invocations from first use. -/
def runSingle (invs : List Invocation) : QueueStaticData × List QueueEntry :=
  runSingleFrom emptyStatic invs

/-- A sequence of multi-mode invocations starting from the given static
data. -/
def runMultiFrom : QueueStaticData → List Invocation →
    QueueStaticData × List QueueEntry
  | sd, [] => (sd, [])
  | sd, inv :: rest =>
    let r := executeMulti inv sd
    let r2 := runMultiFrom r.1 rest
    (r2.1, r.2 ++ r2.2)

/-- A sequence of multi-mode invocations from first use. -/
def runMulti (invs : List Invocation) : QueueStaticData × List QueueEntry :=
  runMultiFrom emptyStatic invs

/-- All entries enqueued over a sequence of invocations, in arrival order. -/
def arrivals : List Invocation → List QueueEntry
  | [] => []
  | inv :: rest => mkEntries inv.now inv.dataInput ++ arrivals rest

/-- The entries of one key, in order: the projection of a trace onto one
queue of the multi-mode mapping. -/
def filterKey (l : List QueueEntry) (k : String) : List QueueEntry :=
  l.filter fun e => decide (e.key = k)

/-- The single-mode queue recorded in the static data. -/
def singleQueueOf (sd : QueueStaticData) : List QueueEntry :=
  sd.queue.getD []

/-- The single-mode lock flag recorded in the static data. -/
def singleLockedOf (sd : QueueStaticData) : Bool :=
  sd.locked.getD false

/-- The multi-mode mapping recorded in the static data. -/
def queuesOf (sd : QueueStaticData) : List (String × KeyQueueState) :=
  sd.queues.getD []

/-- The `(queue, locked)` view of one key of a multi-mode mapping; an absent
key reads as an empty, unlocked queue. -/
def viewK (qs : List (String × KeyQueueState)) (k : String) :
    List QueueEntry × Bool :=
  match assocLookup qs k with
  | some st => (st.queue, st.locked)
  | none => ([], false)

/-- A single-mode release signal is matched when it carries a non-empty key
equal to the head entry's key. -/
def matchesSingle (q : List QueueEntry) (sig : Option String) : Bool :=
  match sig, q with
  | some k, head :: _ => decide (k ≠ "") && decide (head.key = k)
  | _, _ => false

/-- A multi-mode release signal is matched when it carries a non-empty key
whose slot exists with a non-empty queue. -/
def matchesMulti (qs : List (String × KeyQueueState)) (sig : Option String) :
    Bool :=
  match sig with
  | some k => decide (k ≠ "") && !(viewK qs k).1.isEmpty
  | none => false

/-- The connection between one queue's full arrival history `A`, its current
contents `q` and lock flag `l`, and its full emission history `E`: while
locked, the already-consumed prefix `D` of `A` has been emitted followed by
the current head, which still holds the lock; while unlocked, the queue is
empty and every arrival has been emitted. -/
def SingleInv (A q : List QueueEntry) (l : Bool) (E : List QueueEntry) : Prop :=
  match l, q with
  | false, _ => q = [] ∧ E = A
  | true, [] => False
  | true, h :: t => ∃ D, A = D ++ h :: t ∧ E = D ++ [h]

/-- `SingleInv` for every key's queue of a multi-mode mapping, with arrival
and emission histories projected per key. -/
def MultiInv (A : List QueueEntry) (qs : List (String × KeyQueueState))
    (E : List QueueEntry) : Prop :=
  ∀ k, SingleInv (filterKey A k) (viewK qs k).1 (viewK qs k).2 (filterKey E k)

/-- The mapping's keys are pairwise distinct (JavaScript object property
names are unique). -/
def NodupKeys (qs : List (String × KeyQueueState)) : Prop :=
  (qs.map Prod.fst).Nodup

/-- Every entry stored under a key carries that key (multi mode routes each
entry by its own key). -/
def WellKeyed (qs : List (String × KeyQueueState)) : Prop :=
  ∀ p ∈ qs, ∀ e ∈ p.2.queue, e.key = p.1

/-- Every key present in the mapping has a non-empty queue. -/
def AllNonempty (qs : List (String × KeyQueueState)) : Prop :=
  ∀ p ∈ qs, p.2.queue ≠ []

/-- The working invariant of the multi-mode signal phase: the running
`(mapping, output)` pair is well formed and every key's queue is related by
`SingleInv` to its arrival history (drawn from `A`) and its emission history
(drawn from `E0` followed by the output accumulated so far). -/
def MultiGood (A E0 : List QueueEntry)
    (st : List (String × KeyQueueState) × List QueueEntry) : Prop :=
  NodupKeys st.1 ∧ WellKeyed st.1 ∧ AllNonempty st.1 ∧
    MultiInv A st.1 (E0 ++ st.2)

/-! ### Unfolding and characterization helpers -/

theorem singleInv_false_iff (A q E : List QueueEntry) :
    SingleInv A q false E ↔ (q = [] ∧ E = A) := Iff.rfl

theorem singleInv_nil_true (A E : List QueueEntry) :
    SingleInv A [] true E ↔ False := Iff.rfl

theorem singleInv_cons_true (A : List QueueEntry) (h : QueueEntry)
    (t E : List QueueEntry) :
    SingleInv A (h :: t) true E ↔ ∃ D, A = D ++ h :: t ∧ E = D ++ [h] := Iff.rfl

theorem promoteSingle_eq (l : Bool) (q : List QueueEntry) :
    promoteSingle l q = (l || !q.isEmpty, if l then [] else q.head?.toList) := by
  cases l <;> cases q <;> rfl

theorem singleInv_take (A q : List QueueEntry) (l : Bool) (E : List QueueEntry)
    (h : SingleInv A q l E) : E = A.take E.length := by
  cases l with
  | false =>
    obtain ⟨hq, hE⟩ := h
    simp [hE]
  | true =>
    cases q with
    | nil => exact absurd h (by simp [SingleInv])
    | cons hd t =>
      obtain ⟨D, hA, hE⟩ := h
      subst hA hE
      simp [List.take_append_eq_append_take, List.take_of_length_le]

theorem singleInv_count (A q : List QueueEntry) (l : Bool) (E : List QueueEntry)
    (h : SingleInv A q l E) : E.length + q.length ≤ A.length + 1 := by
  cases l with
  | false =>
    obtain ⟨hq, hE⟩ := h
    subst hq
    simp [hE]
  | true =>
    cases q with
    | nil => exact absurd h (by simp [SingleInv])
    | cons hd t =>
      obtain ⟨D, hA, hE⟩ := h
      subst hA hE
      simp
      omega

theorem singleInv_holder (A q : List QueueEntry) (l : Bool) (E : List QueueEntry)
    (h : SingleInv A q l E) (hl : l = true) :
    q ≠ [] ∧ E.getLast? = q.head? := by
  subst hl
  cases q with
  | nil => exact absurd h (by simp [SingleInv])
  | cons hd t =>
    obtain ⟨D, hA, hE⟩ := h
    subst hE
    exact ⟨by simp, by simp⟩

/-! ### Single mode: invariant preservation -/

theorem singleInv_promote (A q N E : List QueueEntry) (l : Bool)
    (h : SingleInv A q l E) :
    SingleInv (A ++ N) (q ++ N) (promoteSingle l (q ++ N)).1
      (E ++ (promoteSingle l (q ++ N)).2) := by
  cases l with
  | false =>
    obtain ⟨hq, hE⟩ := h
    subst hq
    cases N with
    | nil => simpa [promoteSingle, SingleInv] using hE
    | cons e t =>
      rw [promoteSingle_eq]
      simp only [List.nil_append, List.isEmpty_cons, Bool.not_false, Bool.false_or,
        Bool.false_eq_true, if_false, List.head?_cons, Option.toList_some]
      exact ⟨A, rfl, by simp [hE]⟩
  | true =>
    cases q with
    | nil => exact absurd h (by simp [SingleInv])
    | cons hd t =>
      obtain ⟨D, hA, hE⟩ := h
      rw [promoteSingle_eq]
      simp only [Bool.true_or, if_true, List.append_nil, List.cons_append]
      exact ⟨D, by rw [hA]; simp, hE⟩

theorem signalStepSingle_out (q : List QueueEntry) (l : Bool)
    (o o₂ : List QueueEntry) (sig : Option String) :
    signalStepSingle ((q, l), o ++ o₂) sig =
      ((signalStepSingle ((q, l), o₂) sig).1,
       o ++ (signalStepSingle ((q, l), o₂) sig).2) := by
  cases sig with
  | none => rfl
  | some k =>
    by_cases hk : k = ""
    · simp [signalStepSingle, hk]
    · cases q with
      | nil => simp [signalStepSingle, hk]
      | cons head rest =>
        by_cases hh : head.key = k
        · cases rest with
          | nil => simp [signalStepSingle, hk, hh]
          | cons next t => simp [signalStepSingle, hk, hh]
        · simp [signalStepSingle, hk, hh]

theorem foldlSigSingle_out (sigs : List (Option String)) :
    ∀ (q : List QueueEntry) (l : Bool) (o o₂ : List QueueEntry),
      sigs.foldl signalStepSingle ((q, l), o ++ o₂) =
        ((sigs.foldl signalStepSingle ((q, l), o₂)).1,
         o ++ (sigs.foldl signalStepSingle ((q, l), o₂)).2) := by
  induction sigs with
  | nil => intro q l o o₂; rfl
  | cons s rest ih =>
    intro q l o o₂
    simp only [List.foldl_cons]
    rw [signalStepSingle_out]
    rcases hr : signalStepSingle ((q, l), o₂) s with ⟨⟨q', l'⟩, o'⟩
    exact ih q' l' o o'

theorem singleInv_sigStep (A q : List QueueEntry) (l : Bool)
    (E : List QueueEntry) (sig : Option String) (h : SingleInv A q l E) :
    SingleInv A (signalStepSingle ((q, l), E) sig).1.1
      (signalStepSingle ((q, l), E) sig).1.2
      (signalStepSingle ((q, l), E) sig).2 := by
  cases sig with
  | none => exact h
  | some k =>
    by_cases hk : k = ""
    · simpa [signalStepSingle, hk] using h
    · cases q with
      | nil => simpa [signalStepSingle, hk] using h
      | cons head rest =>
        cases l with
        | false => exact absurd (h.1) (by simp)
        | true =>
          obtain ⟨D, hA, hE⟩ := h
          by_cases hh : head.key = k
          · cases rest with
            | nil =>
              simp only [signalStepSingle, if_neg hk, if_pos hh]
              exact ⟨rfl, by rw [hE, hA]⟩
            | cons next t =>
              simp only [signalStepSingle, if_neg hk, if_pos hh]
              exact ⟨D ++ [head], by simp [hA], by simp [hE]⟩
          · simpa [signalStepSingle, hk, hh] using ⟨D, hA, hE⟩

theorem singleInv_foldSig (A : List QueueEntry) (sigs : List (Option String)) :
    ∀ (q : List QueueEntry) (l : Bool) (E : List QueueEntry),
      SingleInv A q l E →
      SingleInv A (sigs.foldl signalStepSingle ((q, l), E)).1.1
        (sigs.foldl signalStepSingle ((q, l), E)).1.2
        (sigs.foldl signalStepSingle ((q, l), E)).2 := by
  induction sigs with
  | nil => intro q l E h; exact h
  | cons s rest ih =>
    intro q l E h
    simp only [List.foldl_cons]
    have h1 := singleInv_sigStep A q l E s h
    rcases hr : signalStepSingle ((q, l), E) s with ⟨⟨q', l'⟩, E'⟩
    rw [hr] at h1
    exact ih q' l' E' h1

theorem singleInv_execute (inv : Invocation) (sd : QueueStaticData)
    (A E : List QueueEntry)
    (h : SingleInv A (singleQueueOf sd) (singleLockedOf sd) E) :
    SingleInv (A ++ mkEntries inv.now inv.dataInput)
      (singleQueueOf (executeSingle inv sd).1)
      (singleLockedOf (executeSingle inv sd).1)
      (E ++ (executeSingle inv sd).2) := by
  have h1 := singleInv_promote A (singleQueueOf sd)
    (mkEntries inv.now inv.dataInput) E (singleLockedOf sd) h
  have h2 := singleInv_foldSig (A ++ mkEntries inv.now inv.dataInput)
    inv.signalInput
    (singleQueueOf sd ++ mkEntries inv.now inv.dataInput)
    (promoteSingle (singleLockedOf sd)
      (singleQueueOf sd ++ mkEntries inv.now inv.dataInput)).1
    (E ++ (promoteSingle (singleLockedOf sd)
      (singleQueueOf sd ++ mkEntries inv.now inv.dataInput)).2) h1
  rw [foldlSigSingle_out] at h2
  simpa [executeSingle, singleQueueOf, singleLockedOf] using h2

theorem singleInv_run (invs : List Invocation) :
    ∀ (sd : QueueStaticData) (A E : List QueueEntry),
      SingleInv A (singleQueueOf sd) (singleLockedOf sd) E →
      SingleInv (A ++ arrivals invs)
        (singleQueueOf (runSingleFrom sd invs).1)
        (singleLockedOf (runSingleFrom sd invs).1)
        (E ++ (runSingleFrom sd invs).2) := by
  induction invs with
  | nil => intro sd A E h; simpa [runSingleFrom, arrivals] using h
  | cons inv rest ih =>
    intro sd A E h
    have h1 := singleInv_execute inv sd A E h
    have h2 := ih (executeSingle inv sd).1
      (A ++ mkEntries inv.now inv.dataInput)
      (E ++ (executeSingle inv sd).2) h1
    simpa [runSingleFrom, arrivals, List.append_assoc] using h2

theorem singleInv_final (invs : List Invocation) :
    SingleInv (arrivals invs) (singleQueueOf (runSingle invs).1)
      (singleLockedOf (runSingle invs).1) (runSingle invs).2 := by
  have h0 : SingleInv ([] : List QueueEntry) (singleQueueOf emptyStatic)
      (singleLockedOf emptyStatic) [] := by
    exact ⟨rfl, rfl⟩
  simpa [runSingle] using singleInv_run invs emptyStatic [] [] h0

/-! ### Association-list lemmas -/

theorem assocLookup_none_of_not_mem (qs : List (String × KeyQueueState))
    (k : String) (h : k ∉ qs.map Prod.fst) : assocLookup qs k = none := by
  induction qs with
  | nil => rfl
  | cons p ps ih =>
    simp only [List.map_cons, List.mem_cons] at h
    push_neg at h
    simp only [assocLookup]
    rw [if_neg (fun hh => h.1 hh.symm)]
    exact ih h.2

theorem mem_of_assocLookup (qs : List (String × KeyQueueState)) (k : String)
    (st : KeyQueueState) (h : assocLookup qs k = some st) : (k, st) ∈ qs := by
  induction qs with
  | nil => simp [assocLookup] at h
  | cons p ps ih =>
    obtain ⟨k₀, st₀⟩ := p
    simp only [assocLookup] at h
    by_cases hp : k₀ = k
    · subst hp
      rw [if_pos rfl] at h
      obtain rfl := Option.some.inj h
      exact List.mem_cons_self _ _
    · rw [if_neg hp] at h
      exact List.mem_cons_of_mem _ (ih h)

theorem isSome_assocLookup_of_mem (qs : List (String × KeyQueueState))
    (k : String) (h : k ∈ qs.map Prod.fst) : (assocLookup qs k).isSome := by
  induction qs with
  | nil => simp at h
  | cons p ps ih =>
    simp only [List.map_cons, List.mem_cons] at h
    simp only [assocLookup]
    by_cases hp : p.1 = k
    · rw [if_pos hp]; rfl
    · rw [if_neg hp]
      exact ih (h.resolve_left (fun hh => hp hh.symm))

theorem assocUpdate_keys (qs : List (String × KeyQueueState)) (k : String)
    (v : KeyQueueState) :
    (assocUpdate qs k v).map Prod.fst = qs.map Prod.fst := by
  induction qs with
  | nil => rfl
  | cons p ps ih =>
    simp only [assocUpdate]
    by_cases hp : p.1 = k
    · rw [if_pos hp]; simp [hp]
    · rw [if_neg hp]; simp [ih]

theorem assocLookup_update_self (qs : List (String × KeyQueueState))
    (k : String) (v : KeyQueueState) (h : (assocLookup qs k).isSome) :
    assocLookup (assocUpdate qs k v) k = some v := by
  induction qs with
  | nil => simp [assocLookup] at h
  | cons p ps ih =>
    simp only [assocUpdate]
    by_cases hp : p.1 = k
    · rw [if_pos hp]; simp [assocLookup]
    · rw [if_neg hp]
      simp only [assocLookup, if_neg hp]
      simp only [assocLookup, if_neg hp] at h
      exact ih h

theorem assocLookup_update_ne (qs : List (String × KeyQueueState))
    (k : String) (v : KeyQueueState) (k' : String) (h : k' ≠ k) :
    assocLookup (assocUpdate qs k v) k' = assocLookup qs k' := by
  induction qs with
  | nil => rfl
  | cons p ps ih =>
    simp only [assocUpdate]
    by_cases hp : p.1 = k
    · rw [if_pos hp]
      simp only [assocLookup]
      rw [if_neg (fun hh => h hh.symm), if_neg (fun hh => h (hh.symm.trans hp))]
    · rw [if_neg hp]
      simp only [assocLookup, ih]

theorem assocLookup_delete_ne (qs : List (String × KeyQueueState))
    (k k' : String) (h : k' ≠ k) :
    assocLookup (assocDelete qs k) k' = assocLookup qs k' := by
  induction qs with
  | nil => rfl
  | cons p ps ih =>
    simp only [assocDelete]
    by_cases hp : p.1 = k
    · rw [if_pos hp]
      simp only [assocLookup]
      rw [if_neg (fun hh => h (hh.symm.trans hp))]
    · rw [if_neg hp]
      simp only [assocLookup, ih]

theorem mem_keys_delete (qs : List (String × KeyQueueState)) (k k' : String)
    (h : k' ∈ (assocDelete qs k).map Prod.fst) : k' ∈ qs.map Prod.fst := by
  induction qs with
  | nil => simp [assocDelete] at h
  | cons p ps ih =>
    simp only [assocDelete] at h
    by_cases hp : p.1 = k
    · rw [if_pos hp] at h
      exact List.mem_cons_of_mem _ h
    · rw [if_neg hp] at h
      simp only [List.map_cons, List.mem_cons] at h ⊢
      exact h.imp id ih

theorem assocLookup_delete_self (qs : List (String × KeyQueueState))
    (k : String) (h : NodupKeys qs) :
    assocLookup (assocDelete qs k) k = none := by
  induction qs with
  | nil => rfl
  | cons p ps ih =>
    simp only [NodupKeys, List.map_cons, List.nodup_cons] at h
    simp only [assocDelete]
    by_cases hp : p.1 = k
    · rw [if_pos hp]
      exact assocLookup_none_of_not_mem ps k (hp ▸ h.1)
    · rw [if_neg hp]
      simp only [assocLookup, if_neg hp]
      exact ih h.2

theorem nodup_delete (qs : List (String × KeyQueueState)) (k : String)
    (h : NodupKeys qs) : NodupKeys (assocDelete qs k) := by
  induction qs with
  | nil => exact h
  | cons p ps ih =>
    simp only [NodupKeys, List.map_cons, List.nodup_cons] at h
    simp only [assocDelete]
    by_cases hp : p.1 = k
    · rw [if_pos hp]; exact h.2
    · rw [if_neg hp]
      simp only [NodupKeys, List.map_cons, List.nodup_cons]
      exact ⟨fun hm => h.1 (mem_keys_delete ps k p.1 hm), ih h.2⟩

theorem mem_assocUpdate (qs : List (String × KeyQueueState)) (k : String)
    (v : KeyQueueState) (p' : String × KeyQueueState)
    (h : p' ∈ assocUpdate qs k v) : p' = (k, v) ∨ p' ∈ qs := by
  induction qs with
  | nil => simp [assocUpdate] at h
  | cons p ps ih =>
    simp only [assocUpdate] at h
    by_cases hp : p.1 = k
    · rw [if_pos hp] at h
      rcases List.mem_cons.1 h with h1 | h1
      · exact Or.inl h1
      · exact Or.inr (List.mem_cons_of_mem _ h1)
    · rw [if_neg hp] at h
      rcases List.mem_cons.1 h with h1 | h1
      · exact Or.inr (h1 ▸ List.mem_cons_self _ _)
      · exact (ih h1).imp id (List.mem_cons_of_mem _)

theorem mem_assocDelete (qs : List (String × KeyQueueState)) (k : String)
    (p' : String × KeyQueueState) (h : p' ∈ assocDelete qs k) : p' ∈ qs := by
  induction qs with
  | nil => simp [assocDelete] at h
  | cons p ps ih =>
    simp only [assocDelete] at h
    by_cases hp : p.1 = k
    · rw [if_pos hp] at h
      exact List.mem_cons_of_mem _ h
    · rw [if_neg hp] at h
      rcases List.mem_cons.1 h with h1 | h1
      · exact h1 ▸ List.mem_cons_self _ _
      · exact List.mem_cons_of_mem _ (ih h1)

/-! ### Enqueue lemmas -/

theorem enqueueMulti_keys (qs : List (String × KeyQueueState)) (e : QueueEntry) :
    (enqueueMulti qs e).map Prod.fst =
      if (assocLookup qs e.key).isSome then qs.map Prod.fst
      else qs.map Prod.fst ++ [e.key] := by
  induction qs with
  | nil => simp [enqueueMulti, assocLookup]
  | cons p ps ih =>
    by_cases hp : p.1 = e.key
    · simp [enqueueMulti, assocLookup, hp]
    · simp only [enqueueMulti, assocLookup, if_neg hp, List.map_cons, ih]
      by_cases hs : (assocLookup ps e.key).isSome
      · simp [hs]
      · simp [hs]

theorem nodup_enqueue (qs : List (String × KeyQueueState)) (e : QueueEntry)
    (h : NodupKeys qs) : NodupKeys (enqueueMulti qs e) := by
  rw [NodupKeys, enqueueMulti_keys]
  by_cases hs : (assocLookup qs e.key).isSome
  · rw [if_pos hs]; exact h
  · rw [if_neg hs]
    have hmem : e.key ∉ qs.map Prod.fst := fun hm => hs (isSome_assocLookup_of_mem qs e.key hm)
    simp only [List.nodup_append, List.nodup_singleton, true_and]
    refine ⟨h, ?_⟩
    simpa [List.disjoint_singleton] using hmem

theorem wellKeyed_enqueue (qs : List (String × KeyQueueState)) (e : QueueEntry)
    (h : WellKeyed qs) : WellKeyed (enqueueMulti qs e) := by
  induction qs with
  | nil =>
    intro p hp e' he'
    simp only [enqueueMulti, List.mem_singleton] at hp
    subst hp
    simp only [List.mem_singleton] at he'
    subst he'
    rfl
  | cons p ps ih =>
    simp only [enqueueMulti]
    by_cases hp : p.1 = e.key
    · rw [if_pos hp]
      intro p' hp' e' he'
      rcases List.mem_cons.1 hp' with h1 | h1
      · subst h1
        simp only [List.mem_append, List.mem_singleton] at he'
        rcases he' with h2 | h2
        · exact h _ (List.mem_cons_self _ _) e' h2
        · subst h2; exact hp.symm
      · exact h _ (List.mem_cons_of_mem _ h1) e' he'
    · rw [if_neg hp]
      intro p' hp' e' he'
      rcases List.mem_cons.1 hp' with h1 | h1
      · subst h1; exact h _ (List.mem_cons_self _ _) e' he'
      · exact ih (fun pp hpp => h _ (List.mem_cons_of_mem _ hpp)) p' h1 e' he'

theorem allNonempty_enqueue (qs : List (String × KeyQueueState)) (e : QueueEntry)
    (h : AllNonempty qs) : AllNonempty (enqueueMulti qs e) := by
  induction qs with
  | nil =>
    intro p hp
    simp only [enqueueMulti, List.mem_singleton] at hp
    subst hp
    simp
  | cons p ps ih =>
    simp only [enqueueMulti]
    by_cases hp : p.1 = e.key
    · rw [if_pos hp]
      intro p' hp'
      rcases List.mem_cons.1 hp' with h1 | h1
      · subst h1; simp
      · exact h _ (List.mem_cons_of_mem _ h1)
    · rw [if_neg hp]
      intro p' hp'
      rcases List.mem_cons.1 hp' with h1 | h1
      · subst h1; exact h _ (List.mem_cons_self _ _)
      · exact ih (fun pp hpp => h _ (List.mem_cons_of_mem _ hpp)) _ h1

theorem viewK_enqueue (qs : List (String × KeyQueueState)) (e : QueueEntry)
    (k : String) :
    viewK (enqueueMulti qs e) k =
      if e.key = k then ((viewK qs k).1 ++ [e], (viewK qs k).2)
      else viewK qs k := by
  induction qs with
  | nil =>
    by_cases hk : e.key = k
    · rw [if_pos hk]
      simp [enqueueMulti, viewK, assocLookup, hk]
    · rw [if_neg hk]
      simp [enqueueMulti, viewK, assocLookup, hk]
  | cons p ps ih =>
    simp only [enqueueMulti]
    by_cases hp : p.1 = e.key
    · rw [if_pos hp]
      by_cases hk2 : p.1 = k
      · have hek : e.key = k := hp ▸ hk2
        rw [if_pos hek]
        simp [viewK, assocLookup, hk2]
      · have hek : e.key ≠ k := fun hh => hk2 (hp.symm ▸ hh)
        rw [if_neg hek]
        simp [viewK, assocLookup, hk2]
    · rw [if_neg hp]
      by_cases hk2 : p.1 = k
      · have hek : e.key ≠ k := fun hh => hp (hk2 ▸ hh.symm ▸ rfl)
        rw [if_neg hek]
        simp [viewK, assocLookup, hk2]
      · simp only [viewK, assocLookup, if_neg hk2]
        exact ih

theorem viewK_enqueueFold (es : List QueueEntry) :
    ∀ (qs : List (String × KeyQueueState)) (k : String),
      viewK (es.foldl enqueueMulti qs) k =
        ((viewK qs k).1 ++ filterKey es k, (viewK qs k).2) := by
  induction es with
  | nil => intro qs k; simp [filterKey]
  | cons e es ih =>
    intro qs k
    simp only [List.foldl_cons]
    rw [ih (enqueueMulti qs e) k, viewK_enqueue]
    by_cases hk : e.key = k
    · rw [if_pos hk]
      simp [filterKey, hk]
    · rw [if_neg hk]
      simp [filterKey, hk]

/-! ### filterKey lemmas -/

theorem filterKey_nil (k : String) : filterKey [] k = [] := rfl

theorem filterKey_cons (e : QueueEntry) (l : List QueueEntry) (k : String) :
    filterKey (e :: l) k =
      if e.key = k then e :: filterKey l k else filterKey l k := by
  by_cases h : e.key = k <;> simp [filterKey, List.filter_cons, h]

theorem filterKey_append (l₁ l₂ : List QueueEntry) (k : String) :
    filterKey (l₁ ++ l₂) k = filterKey l₁ k ++ filterKey l₂ k := by
  simp [filterKey, List.filter_append]

/-! ### Promotion lemmas -/

theorem promoteAll_eq (qs : List (String × KeyQueueState)) :
    promoteAll qs =
      (qs.map fun p => (p.1, ⟨p.2.queue, p.2.locked || !p.2.queue.isEmpty⟩),
       qs.filterMap fun p => if p.2.locked then none else p.2.queue.head?) := by
  induction qs with
  | nil => rfl
  | cons p ps ih =>
    obtain ⟨k, st⟩ := p
    obtain ⟨q, l⟩ := st
    cases l <;> cases q <;> simp [promoteAll, ih, List.filterMap_cons]

theorem promote_keys (qs : List (String × KeyQueueState)) :
    (promoteAll qs).1.map Prod.fst = qs.map Prod.fst := by
  rw [promoteAll_eq]
  simp

theorem nodup_promote (qs : List (String × KeyQueueState)) (h : NodupKeys qs) :
    NodupKeys (promoteAll qs).1 := by
  rw [NodupKeys, promote_keys]
  exact h

theorem wellKeyed_promote (qs : List (String × KeyQueueState))
    (h : WellKeyed qs) : WellKeyed (promoteAll qs).1 := by
  rw [promoteAll_eq]
  intro p' hp' e' he'
  simp only [List.mem_map] at hp'
  obtain ⟨p, hp, rfl⟩ := hp'
  exact h p hp e' he'

theorem allNonempty_promote (qs : List (String × KeyQueueState))
    (h : AllNonempty qs) : AllNonempty (promoteAll qs).1 := by
  rw [promoteAll_eq]
  intro p' hp'
  simp only [List.mem_map] at hp'
  obtain ⟨p, hp, rfl⟩ := hp'
  exact h p hp

theorem assocLookup_mapVal (f : KeyQueueState → KeyQueueState)
    (qs : List (String × KeyQueueState)) (k : String) :
    assocLookup (qs.map fun p => (p.1, f p.2)) k = (assocLookup qs k).map f := by
  induction qs with
  | nil => rfl
  | cons p ps ih =>
    simp only [List.map_cons, assocLookup]
    by_cases hp : p.1 = k
    · rw [if_pos hp, if_pos hp]; rfl
    · rw [if_neg hp, if_neg hp]; exact ih

theorem viewK_promote (qs : List (String × KeyQueueState)) (k : String) :
    viewK (promoteAll qs).1 k =
      ((viewK qs k).1, (viewK qs k).2 || !(viewK qs k).1.isEmpty) := by
  have h := assocLookup_mapVal
    (fun st => ⟨st.queue, st.locked || !st.queue.isEmpty⟩) qs k
  rw [promoteAll_eq]
  cases hl : assocLookup qs k with
  | none => simp [viewK, h, hl]
  | some st => simp [viewK, h, hl]

theorem promote_out_filter_none (qs : List (String × KeyQueueState))
    (k : String) (hW : WellKeyed qs) (hmem : k ∉ qs.map Prod.fst) :
    filterKey (promoteAll qs).2 k = [] := by
  induction qs with
  | nil => rfl
  | cons p ps ih =>
    simp only [List.map_cons, List.mem_cons] at hmem
    push_neg at hmem
    obtain ⟨k₀, st⟩ := p
    obtain ⟨q, l⟩ := st
    have hWps : WellKeyed ps := fun pp hpp => hW pp (List.mem_cons_of_mem _ hpp)
    have ihh := ih hWps hmem.2
    cases l with
    | false =>
      cases q with
      | nil => simpa [promoteAll] using ihh
      | cons e t =>
        have hek : e.key = k₀ :=
          hW _ (List.mem_cons_self _ _) e (List.mem_cons_self _ _)
        have hne : ¬(e.key = k) := by
          rw [hek]; exact fun hh => hmem.1 hh.symm
        simpa [promoteAll, filterKey_cons, hne] using ihh
    | true => simpa [promoteAll] using ihh

theorem promote_out_filter (qs : List (String × KeyQueueState)) (k : String)
    (hW : WellKeyed qs) (hN : NodupKeys qs) :
    filterKey (promoteAll qs).2 k =
      if (viewK qs k).2 then [] else (viewK qs k).1.head?.toList := by
  induction qs with
  | nil => simp [promoteAll, viewK, assocLookup, filterKey_nil]
  | cons p ps ih =>
    obtain ⟨k₀, st⟩ := p
    obtain ⟨q, l⟩ := st
    have hWps : WellKeyed ps := fun pp hpp => hW pp (List.mem_cons_of_mem _ hpp)
    have hNps : NodupKeys ps := by
      simp only [NodupKeys, List.map_cons, List.nodup_cons] at hN
      exact hN.2
    have hk₀ : k₀ ∉ ps.map Prod.fst := by
      simp only [NodupKeys, List.map_cons, List.nodup_cons] at hN
      exact hN.1
    by_cases hkk : k₀ = k
    · subst hkk
      cases l with
      | false =>
        cases q with
        | nil =>
          simp [promoteAll, viewK, assocLookup,
            promote_out_filter_none ps k₀ hWps hk₀]
        | cons e t =>
          have hek : e.key = k₀ :=
            hW _ (List.mem_cons_self _ _) e (List.mem_cons_self _ _)
          simp [promoteAll, viewK, assocLookup, filterKey_cons, hek,
            promote_out_filter_none ps k₀ hWps hk₀]
      | true =>
        simp [promoteAll, viewK, assocLookup,
          promote_out_filter_none ps k₀ hWps hk₀]
    · have ihh := ih hWps hNps
      cases l with
      | false =>
        cases q with
        | nil => simpa [promoteAll, viewK, assocLookup, hkk] using ihh
        | cons e t =>
          have hek : e.key = k₀ :=
            hW _ (List.mem_cons_self _ _) e (List.mem_cons_self _ _)
          have hne : ¬(e.key = k) := by rw [hek]; exact hkk
          simpa [promoteAll, viewK, assocLookup, hkk, filterKey_cons, hne]
            using ihh
      | true => simpa [promoteAll, viewK, assocLookup, hkk] using ihh

/-! ### Update and delete preservation -/

theorem nodup_update (qs : List (String × KeyQueueState)) (k : String)
    (v : KeyQueueState) (h : NodupKeys qs) : NodupKeys (assocUpdate qs k v) := by
  rw [NodupKeys, assocUpdate_keys]
  exact h

theorem wellKeyed_update (qs : List (String × KeyQueueState)) (k : String)
    (v : KeyQueueState) (hW : WellKeyed qs) (hv : ∀ e ∈ v.queue, e.key = k) :
    WellKeyed (assocUpdate qs k v) := by
  intro p' hp' e' he'
  rcases mem_assocUpdate qs k v p' hp' with h1 | h1
  · subst h1; exact hv e' he'
  · exact hW p' h1 e' he'

theorem allNonempty_update (qs : List (String × KeyQueueState)) (k : String)
    (v : KeyQueueState) (h : AllNonempty qs) (hv : v.queue ≠ []) :
    AllNonempty (assocUpdate qs k v) := by
  intro p' hp'
  rcases mem_assocUpdate qs k v p' hp' with h1 | h1
  · subst h1; exact hv
  · exact h p' h1

theorem wellKeyed_delete (qs : List (String × KeyQueueState)) (k : String)
    (hW : WellKeyed qs) : WellKeyed (assocDelete qs k) :=
  fun p' hp' e' he' => hW p' (mem_assocDelete qs k p' hp') e' he'

theorem allNonempty_delete (qs : List (String × KeyQueueState)) (k : String)
    (h : AllNonempty qs) : AllNonempty (assocDelete qs k) :=
  fun p' hp' => h p' (mem_assocDelete qs k p' hp')

/-! ### Multi mode: signal phase preserves the invariant -/

theorem multiGood_sigStep (A E0 : List QueueEntry)
    (st : List (String × KeyQueueState) × List QueueEntry) (sig : Option String)
    (h : MultiGood A E0 st) : MultiGood A E0 (signalStepMulti st sig) := by
  obtain ⟨hN, hW, hNE, hI⟩ := h
  cases sig with
  | none => exact ⟨hN, hW, hNE, hI⟩
  | some k =>
    by_cases hk : k = ""
    · simp only [signalStepMulti, if_pos hk]
      exact ⟨hN, hW, hNE, hI⟩
    · cases hlook : assocLookup st.1 k with
      | none =>
        simp only [signalStepMulti, if_neg hk, hlook]
        exact ⟨hN, hW, hNE, hI⟩
      | some kq =>
        obtain ⟨kqq, kql⟩ := kq
        have hmem : (k, (⟨kqq, kql⟩ : KeyQueueState)) ∈ st.1 :=
          mem_of_assocLookup _ _ _ hlook
        have hkeys : ∀ e ∈ kqq, e.key = k := hW _ hmem
        cases kqq with
        | nil =>
          simp only [signalStepMulti, if_neg hk, hlook]
          exact ⟨hN, hW, hNE, hI⟩
        | cons h₀ rest =>
          have hview : viewK st.1 k = (h₀ :: rest, kql) := by
            simp [viewK, hlook]
          have hIk : SingleInv (filterKey A k) (h₀ :: rest) kql
              (filterKey (E0 ++ st.2) k) := by
            have h5 := hI k
            rw [hview] at h5
            exact h5
          cases kql with
          | false => exact absurd hIk.1 (by simp)
          | true =>
            obtain ⟨D, hA, hE⟩ := hIk
            cases rest with
            | nil =>
              simp only [signalStepMulti, if_neg hk, hlook]
              refine ⟨nodup_delete _ k hN, wellKeyed_delete _ k hW,
                allNonempty_delete _ k hNE, ?_⟩
              intro k'
              by_cases hkk : k' = k
              · subst hkk
                have hvd : viewK (assocDelete st.1 k') k' = ([], false) := by
                  simp [viewK, assocLookup_delete_self st.1 k' hN]
                rw [hvd]
                exact ⟨rfl, by rw [hE, hA]⟩
              · have hvd : viewK (assocDelete st.1 k) k' = viewK st.1 k' := by
                  simp [viewK, assocLookup_delete_ne st.1 k k' hkk]
                rw [hvd]
                exact hI k'
            | cons next t =>
              have hnext : next.key = k :=
                hkeys next (List.mem_cons_of_mem _ (List.mem_cons_self _ _))
              simp only [signalStepMulti, if_neg hk, hlook]
              refine ⟨nodup_update _ k _ hN,
                wellKeyed_update _ k _ hW
                  (fun e he => hkeys e (List.mem_cons_of_mem _ he)),
                allNonempty_update _ k _ hNE (by simp), ?_⟩
              intro k'
              by_cases hkk : k' = k
              · subst hkk
                have hvu : viewK (assocUpdate st.1 k' ⟨next :: t, true⟩) k' =
                    (next :: t, true) := by
                  simp [viewK,
                    assocLookup_update_self st.1 k' ⟨next :: t, true⟩
                      (by rw [hlook]; rfl)]
                rw [hvu]
                have hfe : filterKey (E0 ++ (st.2 ++ [next])) k' =
                    filterKey (E0 ++ st.2) k' ++ [next] := by
                  simp [filterKey_append, filterKey_cons, hnext, filterKey_nil]
                rw [hfe]
                exact ⟨D ++ [h₀], by simp [hA], by simp [hE]⟩
              · have hvu : viewK (assocUpdate st.1 k ⟨next :: t, true⟩) k' =
                    viewK st.1 k' := by
                  simp [viewK, assocLookup_update_ne st.1 k ⟨next :: t, true⟩ k' hkk]
                rw [hvu]
                have hfe : filterKey (E0 ++ (st.2 ++ [next])) k' =
                    filterKey (E0 ++ st.2) k' := by
                  have hne : ¬(next.key = k') := by
                    rw [hnext]; exact fun hh => hkk hh.symm
                  simp [filterKey_append, filterKey_cons, hne, filterKey_nil]
                rw [hfe]
                exact hI k'

theorem multiGood_foldSig (A E0 : List QueueEntry)
    (sigs : List (Option String)) :
    ∀ (st : List (String × KeyQueueState) × List QueueEntry),
      MultiGood A E0 st → MultiGood A E0 (sigs.foldl signalStepMulti st) := by
  induction sigs with
  | nil => intro st h; exact h
  | cons s rest ih =>
    intro st h
    simp only [List.foldl_cons]
    exact ih _ (multiGood_sigStep A E0 st s h)

/-! ### Multi mode: arrival and promotion phases, full runs -/

theorem enqueueFold_wf (es : List QueueEntry) :
    ∀ (qs : List (String × KeyQueueState)),
      NodupKeys qs → WellKeyed qs → AllNonempty qs →
      NodupKeys (es.foldl enqueueMulti qs) ∧
      WellKeyed (es.foldl enqueueMulti qs) ∧
      AllNonempty (es.foldl enqueueMulti qs) := by
  induction es with
  | nil => intro qs h1 h2 h3; exact ⟨h1, h2, h3⟩
  | cons e es ih =>
    intro qs h1 h2 h3
    simp only [List.foldl_cons]
    exact ih _ (nodup_enqueue _ _ h1) (wellKeyed_enqueue _ _ h2)
      (allNonempty_enqueue _ _ h3)

theorem multiGood_start (A E : List QueueEntry)
    (qs : List (String × KeyQueueState)) (es : List QueueEntry)
    (hN : NodupKeys qs) (hW : WellKeyed qs) (hNE : AllNonempty qs)
    (hI : MultiInv A qs E) :
    MultiGood (A ++ es) E (promoteAll (es.foldl enqueueMulti qs)) := by
  obtain ⟨hN1, hW1, hNE1⟩ := enqueueFold_wf es qs hN hW hNE
  refine ⟨nodup_promote _ hN1, wellKeyed_promote _ hW1,
    allNonempty_promote _ hNE1, ?_⟩
  intro k
  rcases hvq : viewK qs k with ⟨q, l⟩
  have hIk : SingleInv (filterKey A k) q l (filterKey E k) := by
    have h5 := hI k
    rw [hvq] at h5
    exact h5
  have hv1 : viewK (es.foldl enqueueMulti qs) k = (q ++ filterKey es k, l) := by
    rw [viewK_enqueueFold, hvq]
  have hv2 : viewK (promoteAll (es.foldl enqueueMulti qs)).1 k =
      (q ++ filterKey es k, l || !(q ++ filterKey es k).isEmpty) := by
    rw [viewK_promote, hv1]
  have hout : filterKey (promoteAll (es.foldl enqueueMulti qs)).2 k =
      if l then [] else (q ++ filterKey es k).head?.toList := by
    rw [promote_out_filter _ _ hW1 hN1, hv1]
  have hstep := singleInv_promote (filterKey A k) q (filterKey es k)
    (filterKey E k) l hIk
  rw [promoteSingle_eq] at hstep
  rw [hv2, filterKey_append A es k, filterKey_append E _ k, hout]
  exact hstep

theorem multiGood_execute (inv : Invocation) (sd : QueueStaticData)
    (A E : List QueueEntry)
    (hN : NodupKeys (queuesOf sd)) (hW : WellKeyed (queuesOf sd))
    (hNE : AllNonempty (queuesOf sd)) (hI : MultiInv A (queuesOf sd) E) :
    NodupKeys (queuesOf (executeMulti inv sd).1) ∧
    WellKeyed (queuesOf (executeMulti inv sd).1) ∧
    AllNonempty (queuesOf (executeMulti inv sd).1) ∧
    MultiInv (A ++ mkEntries inv.now inv.dataInput)
      (queuesOf (executeMulti inv sd).1) (E ++ (executeMulti inv sd).2) := by
  have h1 := multiGood_start A E (queuesOf sd)
    (mkEntries inv.now inv.dataInput) hN hW hNE hI
  have h2 := multiGood_foldSig (A ++ mkEntries inv.now inv.dataInput) E
    inv.signalInput _ h1
  obtain ⟨g1, g2, g3, g4⟩ := h2
  exact ⟨g1, g2, g3, g4⟩

theorem multiGood_run (invs : List Invocation) :
    ∀ (sd : QueueStaticData) (A E : List QueueEntry),
      NodupKeys (queuesOf sd) → WellKeyed (queuesOf sd) →
      AllNonempty (queuesOf sd) → MultiInv A (queuesOf sd) E →
      NodupKeys (queuesOf (runMultiFrom sd invs).1) ∧
      WellKeyed (queuesOf (runMultiFrom sd invs).1) ∧
      AllNonempty (queuesOf (runMultiFrom sd invs).1) ∧
      MultiInv (A ++ arrivals invs) (queuesOf (runMultiFrom sd invs).1)
        (E ++ (runMultiFrom sd invs).2) := by
  induction invs with
  | nil =>
    intro sd A E h1 h2 h3 h4
    simp only [runMultiFrom, arrivals, List.append_nil]
    exact ⟨h1, h2, h3, h4⟩
  | cons inv rest ih =>
    intro sd A E h1 h2 h3 h4
    obtain ⟨g1, g2, g3, g4⟩ := multiGood_execute inv sd A E h1 h2 h3 h4
    obtain ⟨f1, f2, f3, f4⟩ := ih (executeMulti inv sd).1 _ _ g1 g2 g3 g4
    refine ⟨f1, f2, f3, ?_⟩
    simp only [arrivals, runMultiFrom]
    rw [← List.append_assoc, ← List.append_assoc]
    exact f4

theorem multiInv_final (invs : List Invocation) :
    NodupKeys (queuesOf (runMulti invs).1) ∧
    WellKeyed (queuesOf (runMulti invs).1) ∧
    AllNonempty (queuesOf (runMulti invs).1) ∧
    MultiInv (arrivals invs) (queuesOf (runMulti invs).1) (runMulti invs).2 := by
  have h0 : MultiInv [] (queuesOf emptyStatic) [] := fun k => ⟨rfl, rfl⟩
  obtain ⟨g1, g2, g3, g4⟩ := multiGood_run invs emptyStatic [] []
    (by simp [queuesOf, emptyStatic, NodupKeys])
    (by intro p hp; simp [queuesOf, emptyStatic] at hp)
    (by intro p hp; simp [queuesOf, emptyStatic] at hp) h0
  exact ⟨g1, g2, g3, by simpa [runMulti] using g4⟩

/-! ### Output threading and frame lemmas -/

theorem signalStepMulti_out (qs : List (String × KeyQueueState))
    (o o₂ : List QueueEntry) (sig : Option String) :
    signalStepMulti (qs, o ++ o₂) sig =
      ((signalStepMulti (qs, o₂) sig).1,
       o ++ (signalStepMulti (qs, o₂) sig).2) := by
  cases sig with
  | none => rfl
  | some k =>
    by_cases hk : k = ""
    · simp [signalStepMulti, hk]
    · cases hlook : assocLookup qs k with
      | none => simp [signalStepMulti, hk, hlook]
      | some kq =>
        obtain ⟨kqq, kql⟩ := kq
        cases kqq with
        | nil => simp [signalStepMulti, hk, hlook]
        | cons h₀ rest =>
          cases rest with
          | nil => simp [signalStepMulti, hk, hlook]
          | cons next t => simp [signalStepMulti, hk, hlook]

theorem foldlSigMulti_out (sigs : List (Option String)) :
    ∀ (qs : List (String × KeyQueueState)) (o o₂ : List QueueEntry),
      sigs.foldl signalStepMulti (qs, o ++ o₂) =
        ((sigs.foldl signalStepMulti (qs, o₂)).1,
         o ++ (sigs.foldl signalStepMulti (qs, o₂)).2) := by
  induction sigs with
  | nil => intro qs o o₂; rfl
  | cons s rest ih =>
    intro qs o o₂
    simp only [List.foldl_cons]
    rw [signalStepMulti_out]
    rcases hr : signalStepMulti (qs, o₂) s with ⟨qs', o'⟩
    exact ih qs' o o'

theorem sigStepMulti_frame (qs : List (String × KeyQueueState))
    (out : List QueueEntry) (k k' : String) (h : k' ≠ k) :
    assocLookup ((signalStepMulti (qs, out) (some k)).1) k' =
      assocLookup qs k' := by
  by_cases hk : k = ""
  · simp [signalStepMulti, hk]
  · cases hlook : assocLookup qs k with
    | none => simp [signalStepMulti, hk, hlook]
    | some kq =>
      obtain ⟨kqq, kql⟩ := kq
      cases kqq with
      | nil => simp [signalStepMulti, hk, hlook]
      | cons h₀ rest =>
        cases rest with
        | nil =>
          simp only [signalStepMulti, if_neg hk, hlook]
          exact assocLookup_delete_ne qs k k' h
        | cons next t =>
          simp only [signalStepMulti, if_neg hk, hlook]
          exact assocLookup_update_ne qs k _ k' h

/-! ### Claim theorems -/

/-- Claim C1: over every sequence of invocations in either mode, the
admissions emitted for one queue are exactly an order-preserving prefix of
that queue's arrivals — in single mode the whole emission trace is a prefix
of the global arrival trace, and in multi mode the emissions carrying key
`k` are a prefix of the arrivals carrying key `k`. In particular no entry is
ever emitted before an entry enqueued ahead of it in the same queue, and the
node's payload output (`nodeOutputSingle` / `nodeOutputMulti`) maps `data`
over this emission trace, so payloads are in arrival order as well. -/
theorem fifo_admission_order (invs : List Invocation) :
    (runSingle invs).2 = (arrivals invs).take (runSingle invs).2.length ∧
    ∀ k, filterKey (runMulti invs).2 k =
      (filterKey (arrivals invs) k).take
        (filterKey (runMulti invs).2 k).length := by
  constructor
  · exact singleInv_take _ _ _ _ (singleInv_final invs)
  · intro k
    exact singleInv_take _ _ _ _ ((multiInv_final invs).2.2.2 k)

/-- Claim C2: in single mode, a release signal whose key is present
(non-empty, hence not skipped by the truthiness test) but differs from the
key of the current head entry leaves the queue, the locked flag and the
output untouched. -/
theorem mismatched_release_ignored (q : List QueueEntry) (l : Bool)
    (out : List QueueEntry) (k : String) (e : QueueEntry) (t : List QueueEntry)
    (hq : q = e :: t) (hk : k ≠ "") (hne : e.key ≠ k) :
    signalStepSingle ((q, l), out) (some k) = ((q, l), out) := by
  subst hq
  simp only [signalStepSingle, if_neg hk]
  simp [hne]

theorem mismatched_release_ignored_witness :
    signalStepSingle (([⟨"a", 1, 0⟩], true), []) (some "b") =
      (([⟨"a", 1, 0⟩], true), []) :=
  mismatched_release_ignored [⟨"a", 1, 0⟩] true [] "b" ⟨"a", 1, 0⟩ []
    rfl (by decide) (by decide)

/-- Claim C4: at most one entry per queue has been admitted without a
subsequent release having removed it. Over any run, the number of removed
entries of a queue is its arrival count minus its current length, so the
claim reads: emissions of a queue never exceed its removals by more than
one. Stated for the single global queue and for every key's queue. -/
theorem at_most_one_holder (invs : List Invocation) :
    (runSingle invs).2.length + (singleQueueOf (runSingle invs).1).length ≤
      (arrivals invs).length + 1 ∧
    ∀ k, (filterKey (runMulti invs).2 k).length +
        (viewK (queuesOf (runMulti invs).1) k).1.length ≤
      (filterKey (arrivals invs) k).length + 1 := by
  constructor
  · exact singleInv_count _ _ _ _ (singleInv_final invs)
  · intro k
    exact singleInv_count _ _ _ _ ((multiInv_final invs).2.2.2 k)

/-- Claim C6: in multi mode, a release signal for key `k` leaves every other
key's slot exactly as it was — same queue, same locked flag, and present in
the mapping exactly when it was present before (the lookup of any other key
is unchanged). -/
theorem release_frames_other_keys (qs : List (String × KeyQueueState))
    (out : List QueueEntry) (k kOther : String) (h : kOther ≠ k) :
    assocLookup ((signalStepMulti (qs, out) (some k)).1) kOther =
      assocLookup qs kOther :=
  sigStepMulti_frame qs out k kOther h

theorem release_frames_other_keys_witness :
    assocLookup
      ((signalStepMulti
        ([("a", ⟨[⟨"a", 1, 0⟩], true⟩), ("b", ⟨[⟨"b", 2, 0⟩], true⟩)], [])
        (some "a")).1) "b" =
      assocLookup
        [("a", ⟨[⟨"a", 1, 0⟩], true⟩), ("b", ⟨[⟨"b", 2, 0⟩], true⟩)] "b" :=
  release_frames_other_keys
    [("a", ⟨[⟨"a", 1, 0⟩], true⟩), ("b", ⟨[⟨"b", 2, 0⟩], true⟩)] []
    "a" "b" (by decide)

/-- Claim C7: in multi mode, a release that empties a key's queue deletes
that key from the mapping in the same step, and consequently after every
sequence of invocations every key present in the mapping has a non-empty
queue. -/
theorem gc_empties_key (invs : List Invocation)
    (qs : List (String × KeyQueueState)) (out : List QueueEntry) (k : String)
    (e : QueueEntry) (l : Bool) (hk : k ≠ "") (hN : NodupKeys qs)
    (hlook : assocLookup qs k = some ⟨[e], l⟩) :
    assocLookup ((signalStepMulti (qs, out) (some k)).1) k = none ∧
    ∀ p ∈ queuesOf (runMulti invs).1, p.2.queue ≠ [] := by
  constructor
  · simp only [signalStepMulti, if_neg hk, hlook]
    exact assocLookup_delete_self qs k hN
  · exact (multiInv_final invs).2.2.1

theorem gc_empties_key_witness :
    assocLookup
      ((signalStepMulti ([("a", ⟨[⟨"a", 1, 0⟩], true⟩)], []) (some "a")).1)
      "a" = none ∧
    ∀ p ∈ queuesOf (runMulti [⟨0, [("a", 1)], []⟩]).1, p.2.queue ≠ [] :=
  gc_empties_key [⟨0, [("a", 1)], []⟩] [("a", ⟨[⟨"a", 1, 0⟩], true⟩)] []
    "a" ⟨"a", 1, 0⟩ true (by decide) (by simp [NodupKeys]) (by decide)

/-- Claim C8: at every invocation boundary reachable from first use, in both
modes, a locked queue is non-empty and its head is the admitted holder: the
most recent admission of that queue is exactly its head entry. -/
theorem locked_head_is_holder (invs : List Invocation) :
    (singleLockedOf (runSingle invs).1 = true →
      singleQueueOf (runSingle invs).1 ≠ [] ∧
      (runSingle invs).2.getLast? =
        (singleQueueOf (runSingle invs).1).head?) ∧
    ∀ k, (viewK (queuesOf (runMulti invs).1) k).2 = true →
      (viewK (queuesOf (runMulti invs).1) k).1 ≠ [] ∧
      (filterKey (runMulti invs).2 k).getLast? =
        (viewK (queuesOf (runMulti invs).1) k).1.head? := by
  constructor
  · intro hl
    exact singleInv_holder _ _ _ _ (singleInv_final invs) hl
  · intro k hl
    exact singleInv_holder _ _ _ _ ((multiInv_final invs).2.2.2 k) hl

theorem locked_head_is_holder_witness :
    (singleQueueOf (runSingle [⟨0, [("k", 5)], []⟩]).1 ≠ [] ∧
      (runSingle [⟨0, [("k", 5)], []⟩]).2.getLast? =
        (singleQueueOf (runSingle [⟨0, [("k", 5)], []⟩]).1).head?) ∧
    ((viewK (queuesOf (runMulti [⟨0, [("k", 5)], []⟩]).1) "k").1 ≠ [] ∧
      (filterKey (runMulti [⟨0, [("k", 5)], []⟩]).2 "k").getLast? =
        (viewK (queuesOf (runMulti [⟨0, [("k", 5)], []⟩]).1) "k").1.head?) :=
  ⟨(locked_head_is_holder [⟨0, [("k", 5)], []⟩]).1 (by decide),
   (locked_head_is_holder [⟨0, [("k", 5)], []⟩]).2 "k" (by decide)⟩

/-- Claim C3 fails on the code: a *duplicate* release signal is only a no-op
when it no longer matches. Concretely, after enqueuing three entries under
key `"a"` and releasing once, the mapping holds the two remaining waiters;
processing the very same release signal a second time emits a further
admission and shrinks that queue from two entries to one. -/
theorem duplicate_release_counterexample :
    queuesOf (executeMulti ⟨0, [("a", 1), ("a", 2), ("a", 3)], [some "a"]⟩
        emptyStatic).1 =
      [("a", ⟨[⟨"a", 2, 0⟩, ⟨"a", 3, 0⟩], true⟩)] ∧
    (viewK [("a", (⟨[⟨"a", 2, 0⟩, ⟨"a", 3, 0⟩], true⟩ : KeyQueueState))]
      "a").1.length = 2 ∧
    (signalStepMulti
      ([("a", ⟨[⟨"a", 2, 0⟩, ⟨"a", 3, 0⟩], true⟩)], []) (some "a")).2 =
      [⟨"a", 3, 0⟩] ∧
    (viewK (signalStepMulti
      ([("a", ⟨[⟨"a", 2, 0⟩, ⟨"a", 3, 0⟩], true⟩)], []) (some "a")).1
      "a").1.length = 1 := by
  decide

/-- Claim C3 (amended): in both modes, processing an *unmatched* release
signal — one with no key or an empty key, or whose selected queue is empty
(single mode: empty global queue or a head whose key differs; multi mode:
absent key or empty queue) — never emits an admission and never changes any
queue. A duplicate release signal is such a no-op only when, after the head
advanced, it has become unmatched (key mismatch or empty queue); a duplicate
whose key still matches acts as a fresh release. -/
theorem unmatched_release_noop (q : List QueueEntry) (l : Bool)
    (o : List QueueEntry) (qs : List (String × KeyQueueState))
    (oM : List QueueEntry) (sig : Option String)
    (h1 : matchesSingle q sig = false) (h2 : matchesMulti qs sig = false) :
    signalStepSingle ((q, l), o) sig = ((q, l), o) ∧
    signalStepMulti (qs, oM) sig = (qs, oM) := by
  constructor
  · cases sig with
    | none => rfl
    | some k =>
      by_cases hk : k = ""
      · simp [signalStepSingle, hk]
      · cases q with
        | nil => simp [signalStepSingle, hk]
        | cons e t =>
          have hne : ¬(e.key = k) := by
            intro hh
            rw [matchesSingle] at h1
            simp [hk, hh] at h1
          simp only [signalStepSingle, if_neg hk]
          simp [hne]
  · cases sig with
    | none => rfl
    | some k =>
      by_cases hk : k = ""
      · simp [signalStepMulti, hk]
      · have hempty : (viewK qs k).1 = [] := by
          rw [matchesMulti] at h2
          simp [hk, List.isEmpty_iff] at h2
          exact h2
        cases hlook : assocLookup qs k with
        | none => simp [signalStepMulti, hk, hlook]
        | some kq =>
          have hq : kq.queue = [] := by
            rw [viewK, hlook] at hempty
            exact hempty
          simp [signalStepMulti, hk, hlook, hq]

theorem unmatched_release_noop_witness :
    matchesSingle [⟨"a", 1, 0⟩] (some "b") = false ∧
    matchesMulti [] (some "b") = false ∧
    signalStepSingle (([⟨"a", 1, 0⟩], true), []) (some "b") =
      (([⟨"a", 1, 0⟩], true), []) ∧
    signalStepMulti (([] : List (String × KeyQueueState)), []) (some "b") =
      ([], []) := by
  refine ⟨by decide, by decide, ?_, ?_⟩
  · exact (unmatched_release_noop [⟨"a", 1, 0⟩] true [] [] [] (some "b")
      (by decide) (by decide)).1
  · exact (unmatched_release_noop [⟨"a", 1, 0⟩] true [] [] [] (some "b")
      (by decide) (by decide)).2

/-- Claim C5: lock promotion, run immediately after all arrivals are
enqueued and before any release signal is processed, locks every unlocked
non-empty queue and emits exactly the head of each such queue, in mapping
order, while locked or empty queues emit nothing and keep their contents;
an invocation without release signals returns precisely the promotion
emissions computed on the post-arrival state. -/
theorem lock_promotion_spec (l : Bool) (q : List QueueEntry)
    (qs : List (String × KeyQueueState)) (now : Nat)
    (d : List (String × Nat)) (sd : QueueStaticData) :
    promoteSingle l q = (l || !q.isEmpty, if l then [] else q.head?.toList) ∧
    promoteAll qs =
      (qs.map fun p => (p.1, ⟨p.2.queue, p.2.locked || !p.2.queue.isEmpty⟩),
       qs.filterMap fun p =>
         if p.2.locked then none else p.2.queue.head?) ∧
    (executeSingle ⟨now, d, []⟩ sd).2 =
      (promoteSingle (singleLockedOf sd)
        (singleQueueOf sd ++ mkEntries now d)).2 ∧
    (executeMulti ⟨now, d, []⟩ sd).2 =
      (promoteAll ((mkEntries now d).foldl enqueueMulti (queuesOf sd))).2 :=
  ⟨promoteSingle_eq l q, promoteAll_eq qs, rfl, rfl⟩

/-- Claim C9: each invocation returns one output batch in decision order:
the arrival-phase promotions come first, followed by the release-phase
emissions, and over a concatenation of two signal batches the emissions of
the first batch precede those of the second, computed on the advanced
state — releases are processed in signal-batch order. -/
theorem admissions_single_ordered_batch (inv : Invocation)
    (sd : QueueStaticData) (s₁ s₂ : List (Option String))
    (q : List QueueEntry) (l : Bool) (qs : List (String × KeyQueueState)) :
    (executeSingle inv sd).2 =
      (promoteSingle (singleLockedOf sd)
        (singleQueueOf sd ++ mkEntries inv.now inv.dataInput)).2 ++
      (inv.signalInput.foldl signalStepSingle
        ((singleQueueOf sd ++ mkEntries inv.now inv.dataInput,
          (promoteSingle (singleLockedOf sd)
            (singleQueueOf sd ++ mkEntries inv.now inv.dataInput)).1),
         [])).2 ∧
    (executeMulti inv sd).2 =
      (promoteAll ((mkEntries inv.now inv.dataInput).foldl enqueueMulti
        (queuesOf sd))).2 ++
      (inv.signalInput.foldl signalStepMulti
        ((promoteAll ((mkEntries inv.now inv.dataInput).foldl enqueueMulti
          (queuesOf sd))).1, [])).2 ∧
    ((s₁ ++ s₂).foldl signalStepSingle ((q, l), [])).2 =
      (s₁.foldl signalStepSingle ((q, l), [])).2 ++
      (s₂.foldl signalStepSingle
        ((s₁.foldl signalStepSingle ((q, l), [])).1, [])).2 ∧
    ((s₁ ++ s₂).foldl signalStepMulti (qs, [])).2 =
      (s₁.foldl signalStepMulti (qs, [])).2 ++
      (s₂.foldl signalStepMulti
        ((s₁.foldl signalStepMulti (qs, [])).1, [])).2 := by
  refine ⟨?_, ?_, ?_, ?_⟩
  · have e1 : (executeSingle inv sd).2 =
        (inv.signalInput.foldl signalStepSingle
          ((singleQueueOf sd ++ mkEntries inv.now inv.dataInput,
            (promoteSingle (singleLockedOf sd)
              (singleQueueOf sd ++ mkEntries inv.now inv.dataInput)).1),
           (promoteSingle (singleLockedOf sd)
             (singleQueueOf sd ++ mkEntries inv.now inv.dataInput)).2)).2 :=
      rfl
    have h := foldlSigSingle_out inv.signalInput
      (singleQueueOf sd ++ mkEntries inv.now inv.dataInput)
      (promoteSingle (singleLockedOf sd)
        (singleQueueOf sd ++ mkEntries inv.now inv.dataInput)).1
      (promoteSingle (singleLockedOf sd)
        (singleQueueOf sd ++ mkEntries inv.now inv.dataInput)).2 []
    rw [List.append_nil] at h
    rw [e1, h]
  · have e2 : (executeMulti inv sd).2 =
        (inv.signalInput.foldl signalStepMulti
          ((promoteAll ((mkEntries inv.now inv.dataInput).foldl enqueueMulti
            (queuesOf sd))).1,
           (promoteAll ((mkEntries inv.now inv.dataInput).foldl enqueueMulti
             (queuesOf sd))).2)).2 := rfl
    have h := foldlSigMulti_out inv.signalInput
      (promoteAll ((mkEntries inv.now inv.dataInput).foldl enqueueMulti
        (queuesOf sd))).1
      (promoteAll ((mkEntries inv.now inv.dataInput).foldl enqueueMulti
        (queuesOf sd))).2 []
    rw [List.append_nil] at h
    rw [e2, h]
  · rw [List.foldl_append]
    rcases h1 : s₁.foldl signalStepSingle ((q, l), []) with ⟨⟨q', l'⟩, o'⟩
    have h2 := foldlSigSingle_out s₂ q' l' o' []
    rw [List.append_nil] at h2
    rw [h2]
  · rw [List.foldl_append]
    rcases h1 : s₁.foldl signalStepMulti (qs, []) with ⟨qs', o'⟩
    have h2 := foldlSigMulti_out s₂ qs' o' []
    rw [List.append_nil] at h2
    rw [h2]

/-- Claim C10: a release signal carrying the empty-string key is skipped by
the truthiness test exactly like an absent key, in both modes; yet in multi
mode an entry enqueued under the empty-string key creates and populates the
empty-string slot and is admitted by promotion, while no signal whatsoever
can ever touch the empty-string slot — such an entry can be admitted but
never released. -/
theorem empty_key_admitted_never_released
    (stS : (List QueueEntry × Bool) × List QueueEntry)
    (stM : List (String × KeyQueueState) × List QueueEntry)
    (qs : List (String × KeyQueueState)) (out : List QueueEntry)
    (d ts : Nat) :
    signalStepSingle stS (some "") = stS ∧
    signalStepMulti stM (some "") = stM ∧
    (∀ sig : Option String,
      assocLookup ((signalStepMulti (qs, out) sig).1) "" =
        assocLookup qs "") ∧
    enqueueMulti [] ⟨"", d, ts⟩ = [("", ⟨[⟨"", d, ts⟩], false⟩)] ∧
    promoteAll [("", ⟨[⟨"", d, ts⟩], false⟩)] =
      ([("", ⟨[⟨"", d, ts⟩], true⟩)], [⟨"", d, ts⟩]) := by
  refine ⟨by simp [signalStepSingle], by simp [signalStepMulti], ?_, rfl, rfl⟩
  intro sig
  cases sig with
  | none => rfl
  | some k =>
    by_cases hk : k = ""
    · subst hk
      simp [signalStepMulti]
    · exact sigStepMulti_frame qs out k "" (fun hh => hk hh.symm)
